import Mathlib

/-!
Verification of the dyndic-segmentation batch image filter (src/main.rs).

The development shallow-embeds the three core pieces of the program:
the connected-component blob detector (flood fill with dual intensity
thresholds), the size/circularity blob classifier with its output mask,
and the lazy recursive path enumerator (the GenResult iterator).

Machine integers are modelled as Nat with explicit reduction modulo 2^32
exactly where the Rust u32 arithmetic can wrap (the wrapping_add_signed
neighbor steps and the pixel index computations).  Out-of-bounds reads of
the visited vector, which would panic in Rust, are modelled by List.getD
with default true (the pixel is then treated as visited and skipped); the
bounds theorem about the flood fill shows that under the no-overflow
hypothesis such reads never happen on recorded coordinates.
-/

namespace DyndicSeg

/-- Modulus of the 32-bit unsigned arithmetic used for pixel coordinates
and indices (x, y, width, height are u32 in the source). -/
def U32 : Nat := 4294967296

/-- Seed threshold from the source: const MAX_BLACK: u8 = 40. -/
def MAX_BLACK : Nat := 40

/-- Expansion threshold from the source: const MAX_GRAY: u8 = 60. -/
def MAX_GRAY : Nat := 60

/-- A decoded single-channel image: width, height and the intensity of
each pixel, as used by the detection part of main.  Accesses performed by
the program are always within bounds (see the bounds theorem), so the
intensity is modelled as a total function. -/
structure Grid where
  w : Nat
  h : Nat
  px : Nat → Nat → Nat

/-- The pixel index computation (y * width + x) as usize of the source;
the multiplication and addition happen on u32 and can wrap. -/
def idx32 (w x y : Nat) : Nat := (y * w + x) % U32

/-- The neighbor offsets [(0, 1), (0, -1), (1, 0), (-1, 0)] of the source,
with the signed deltas encoded as their two's complement u32 values, as
consumed by wrapping_add_signed. -/
def offsets : List (Nat × Nat) := [(0, 1), (0, U32 - 1), (1, 0), (U32 - 1, 0)]

/-- One pass of the neighbor loop of the flood fill: for each offset,
compute (cx, cy) with wrapping arithmetic and keep the neighbor unless one
of the four guards (cx out of range, cy out of range, already visited,
intensity above MAX_GRAY) skips it.  The guards are nested to mirror the
short-circuit evaluation of the source. -/
def pushNeighbors (g : Grid) (vis : List Bool) (x y : Nat) : List (Nat × Nat) :=
  offsets.filterMap fun d =>
    let cx := (x + d.1) % U32
    let cy := (y + d.2) % U32
    if g.w ≤ cx then none
    else if g.h ≤ cy then none
    else if vis.getD (idx32 g.w cx cy) true then none
    else if MAX_GRAY < g.px cx cy then none
    else some (cx, cy)

lemma length_pushNeighbors_le (g : Grid) (vis : List Bool) (x y : Nat) :
    (pushNeighbors g vis x y).length ≤ 4 := by
  have h := List.length_filterMap_le
    (fun d : Nat × Nat =>
      let cx := (x + d.1) % U32
      let cy := (y + d.2) % U32
      if g.w ≤ cx then none
      else if g.h ≤ cy then none
      else if vis.getD (idx32 g.w cx cy) true then none
      else if MAX_GRAY < g.px cx cy then none
      else some (cx, cy)) offsets
  simpa [pushNeighbors, offsets] using h

lemma count_false_set_lt : ∀ (l : List Bool) (i : Nat), l.getD i true = false →
    (l.set i true).count false < l.count false := by
  intro l
  induction l with
  | nil => intro i h; simp [List.getD] at h
  | cons b t ih =>
    intro i h
    cases i with
    | zero =>
      simp [List.getD] at h
      subst h
      simp [List.set, List.count_cons]
    | succ n =>
      rw [List.getD_cons_succ] at h
      have := ih n h
      simp [List.set, List.count_cons]
      omega

/-- The BFS loop of the flood fill (lines 123-140 of main.rs): pop from
the front of the queue; skip the pixel if it is already visited; otherwise
mark it visited, record it in the component, and enqueue each admissible
neighbor at the back. -/
def bfs (g : Grid) : List Bool → List (Nat × Nat) → List (Nat × Nat) →
    List Bool × List (Nat × Nat)
  | vis, [], blob => (vis, blob)
  | vis, (x, y) :: q, blob =>
    if h : vis.getD (idx32 g.w x y) true = true then
      bfs g vis q blob
    else
      let vis1 := vis.set (idx32 g.w x y) true
      bfs g vis1 (q ++ pushNeighbors g vis1 x y) (blob ++ [(x, y)])
termination_by vis q blob => 5 * vis.count false + q.length
decreasing_by
  · simp
  · have hf : vis.getD (idx32 g.w x y) true = false := by
      cases hb : vis.getD (idx32 g.w x y) true
      · rfl
      · exact absurd hb h
    have h1 := count_false_set_lt vis (idx32 g.w x y) hf
    have h2 := length_pushNeighbors_le g (vis.set (idx32 g.w x y) true) x y
    simp only [List.length_append, List.length_cons]
    omega

/-- The traversal order of enumerate_pixels: row-major, x varying
fastest. -/
def pixelList (g : Grid) : List (Nat × Nat) :=
  (List.range g.h).flatMap fun y => (List.range g.w).map fun x => (x, y)

/-- The outer loop of the detector (lines 116-144 of main.rs): for each
pixel in traversal order, skip it when it is already visited or brighter
than MAX_BLACK; otherwise seed a component list with it, run the BFS from
it, and record the resulting component when its recorded length exceeds
one. -/
def detectGo (g : Grid) :
    List (Nat × Nat) → List Bool → List (List (Nat × Nat)) →
    List Bool × List (List (Nat × Nat))
  | [], vis, acc => (vis, acc)
  | (x, y) :: rest, vis, acc =>
    if vis.getD (idx32 g.w x y) true ∨ MAX_BLACK < g.px x y then
      detectGo g rest vis acc
    else
      let r := bfs g vis [(x, y)] [(x, y)]
      detectGo g rest r.1 (if 1 < r.2.length then acc ++ [r.2] else acc)

/-- The full blob detector: visited vector of (width * height) as u32
entries, all false, then the seeded flood fill over every pixel. -/
def detect (g : Grid) : List (List (Nat × Nat)) :=
  (detectGo g (pixelList g) (List.replicate ((g.w * g.h) % U32) false) []).2

lemma bfs_cons_visited (g : Grid) (vis : List Bool) (x y : Nat)
    (q blob : List (Nat × Nat)) (h : vis.getD (idx32 g.w x y) true = true) :
    bfs g vis ((x, y) :: q) blob = bfs g vis q blob := by
  rw [bfs.eq_2, dif_pos h]

lemma bfs_cons_new (g : Grid) (vis : List Bool) (x y : Nat)
    (q blob : List (Nat × Nat)) (h : ¬vis.getD (idx32 g.w x y) true = true) :
    bfs g vis ((x, y) :: q) blob =
      bfs g (vis.set (idx32 g.w x y) true)
        (q ++ pushNeighbors g (vis.set (idx32 g.w x y) true) x y)
        (blob ++ [(x, y)]) := by
  rw [bfs.eq_2, dif_neg h]

/-- Fuel-indexed twin of the BFS loop: identical steps driven by a fuel
counter so that concrete runs reduce by evaluation; shown equal to the
loop whenever the fuel exceeds the loop measure. -/
def bfsF (g : Grid) : Nat → List Bool → List (Nat × Nat) → List (Nat × Nat) →
    List Bool × List (Nat × Nat)
  | 0, vis, _, blob => (vis, blob)
  | _ + 1, vis, [], blob => (vis, blob)
  | n + 1, vis, (x, y) :: q, blob =>
    if h : vis.getD (idx32 g.w x y) true = true then bfsF g n vis q blob
    else
      let vis1 := vis.set (idx32 g.w x y) true
      bfsF g n vis1 (q ++ pushNeighbors g vis1 x y) (blob ++ [(x, y)])

lemma bfsF_succ_nil (g : Grid) (n : Nat) (vis : List Bool)
    (blob : List (Nat × Nat)) : bfsF g (n + 1) vis [] blob = (vis, blob) := rfl

lemma bfsF_succ_visited (g : Grid) (n : Nat) (vis : List Bool) (x y : Nat)
    (q blob : List (Nat × Nat)) (h : vis.getD (idx32 g.w x y) true = true) :
    bfsF g (n + 1) vis ((x, y) :: q) blob = bfsF g n vis q blob := by
  simp only [bfsF]
  rw [dif_pos h]

lemma bfsF_succ_new (g : Grid) (n : Nat) (vis : List Bool) (x y : Nat)
    (q blob : List (Nat × Nat)) (h : ¬vis.getD (idx32 g.w x y) true = true) :
    bfsF g (n + 1) vis ((x, y) :: q) blob =
      bfsF g n (vis.set (idx32 g.w x y) true)
        (q ++ pushNeighbors g (vis.set (idx32 g.w x y) true) x y)
        (blob ++ [(x, y)]) := by
  simp only [bfsF]
  rw [dif_neg h]

lemma bfsF_eq_bfs (g : Grid) : ∀ (vis : List Bool) (q blob : List (Nat × Nat))
    (n : Nat), 5 * vis.count false + q.length < n →
    bfsF g n vis q blob = bfs g vis q blob := by
  intro vis q blob
  induction vis, q, blob using bfs.induct g with
  | case1 vis blob =>
    intro n hn
    match n, hn with
    | n + 1, _ => rw [bfsF_succ_nil, bfs.eq_1]
  | case2 vis x y q blob h ih =>
    intro n hn
    match n, hn with
    | n + 1, hn =>
      rw [bfsF_succ_visited g n vis x y q blob h,
        bfs_cons_visited g vis x y q blob h]
      exact ih n (by simp only [List.length_cons] at hn; omega)
  | case3 vis x y q blob h vis1 ih =>
    intro n hn
    match n, hn with
    | n + 1, hn =>
      have hf : vis.getD (idx32 g.w x y) true = false := by
        cases hb : vis.getD (idx32 g.w x y) true
        · rfl
        · exact absurd hb h
      rw [bfsF_succ_new g n vis x y q blob h, bfs_cons_new g vis x y q blob h]
      apply ih
      show 5 * List.count false (vis.set (idx32 g.w x y) true) +
        (q ++ pushNeighbors g (vis.set (idx32 g.w x y) true) x y).length < n
      have h1 := count_false_set_lt vis (idx32 g.w x y) hf
      have h2 := length_pushNeighbors_le g (vis.set (idx32 g.w x y) true) x y
      simp only [List.length_append, List.length_cons] at hn ⊢
      omega

/-- Fuel-driven twin of the detector loop, calling bfsF with enough fuel
at every seed; used to evaluate the detector on concrete grids. -/
def detectGoF (g : Grid) :
    List (Nat × Nat) → List Bool → List (List (Nat × Nat)) →
    List Bool × List (List (Nat × Nat))
  | [], vis, acc => (vis, acc)
  | (x, y) :: rest, vis, acc =>
    if vis.getD (idx32 g.w x y) true ∨ MAX_BLACK < g.px x y then
      detectGoF g rest vis acc
    else
      let r := bfsF g (5 * vis.length + 2) vis [(x, y)] [(x, y)]
      detectGoF g rest r.1 (if 1 < r.2.length then acc ++ [r.2] else acc)

def detectF (g : Grid) : List (List (Nat × Nat)) :=
  (detectGoF g (pixelList g) (List.replicate ((g.w * g.h) % U32) false) []).2

lemma detectGoF_eq_detectGo (g : Grid) :
    ∀ (l : List (Nat × Nat)) (vis : List Bool) (acc : List (List (Nat × Nat))),
    detectGoF g l vis acc = detectGo g l vis acc := by
  intro l
  induction l with
  | nil => intro vis acc; rfl
  | cons p rest ih =>
    intro vis acc
    obtain ⟨x, y⟩ := p
    by_cases h : vis.getD (idx32 g.w x y) true = true ∨ MAX_BLACK < g.px x y
    · rw [detectGoF, if_pos (by simpa using h), detectGo, if_pos (by simpa using h)]
      exact ih vis acc
    · have hb : bfsF g (5 * vis.length + 2) vis [(x, y)] [(x, y)] =
          bfs g vis [(x, y)] [(x, y)] := by
        apply bfsF_eq_bfs
        have := List.count_le_length false vis
        simp only [List.length_cons, List.length_nil]
        omega
      rw [detectGoF, if_neg (by simpa using h), detectGo, if_neg (by simpa using h)]
      simp only [hb]
      exact ih _ _

lemma detectF_eq_detect (g : Grid) : detectF g = detect g := by
  unfold detectF detect
  rw [detectGoF_eq_detectGo]

/-- Numerator of the exact rational value of the f64 constant
f64::consts::PI = 884279719003555 / 2^48 used by the classifier. -/
def piNum : Int := 884279719003555

/-- Denominator 2^48 of the exact rational value of f64::consts::PI. -/
def piDen : Int := 281474976710656

/-- The circularity rejection test of the classifier (lines 149-162 of
main.rs), modelled in exact integer arithmetic.  The source computes, in
f64, the centroid (sx/n, sy/n) of the recorded list, expected_radius =
n / pi, allowed_radius = expected_radius * 1.5, and rejects the blob when
some member has hypot(x - cx, y - cy) > allowed_radius.  Both sides of
that comparison are nonnegative, so it is equivalent to comparing their
squares; multiplying through by n^2 and by 4 * piNum^2 clears every
denominator (pi is the exact rational piNum / piDen), giving the integer
inequality below.  Rounding of the f64 operations is not modelled; no
claim in this development depends on the test anywhere near its
threshold. -/
def circRejectAt (n sx sy : Int) (p : Nat × Nat) : Bool :=
  decide ((9 : Int) * piDen ^ 2 * n ^ 4 <
    4 * piNum ^ 2 * ((n * (p.1 : Int) - sx) ^ 2 + (n * (p.2 : Int) - sy) ^ 2))

def circReject (blob : List (Nat × Nat)) : Bool :=
  let n : Int := blob.length
  let sx : Int := (blob.map fun p => (p.1 : Int)).sum
  let sy : Int := (blob.map fun p => (p.2 : Int)).sum
  blob.any (circRejectAt n sx sy)

/-- The output mask, modelled as the intensity it holds at each
coordinate; ImageBuffer::new zero-initializes every pixel. -/
def mask0 : Nat → Nat → Nat := fun _ _ => 0

/-- Stamping one accepted blob into the mask: every member position is
set to foreground 255 (line 164-166 of main.rs). -/
def stampBlob (m : Nat → Nat → Nat) (blob : List (Nat × Nat)) :
    Nat → Nat → Nat :=
  blob.foldl (fun acc p => fun x y => if x = p.1 ∧ y = p.2 then 255 else acc x y) m

/-- Processing of one blob by the classifier loop (lines 145-167 of
main.rs): skip it when its recorded length is below 3 or above 10000,
skip it when the circularity test rejects it, otherwise stamp it. -/
def classifyStep (m : Nat → Nat → Nat) (blob : List (Nat × Nat)) :
    Nat → Nat → Nat :=
  if blob.length < 3 ∨ 10000 < blob.length then m
  else if circReject blob then m
  else stampBlob m blob

/-- The classifier over the whole blob list, producing the stamped mask
(before inversion). -/
def classifyMask (blobs : List (List (Nat × Nat))) : Nat → Nat → Nat :=
  blobs.foldl classifyStep mask0

/-- Inversion of one 8-bit mask value, as performed by the external image
crate on every pixel of the 8-bit luma buffer before saving: the u8
complement, i.e. xor with 255, which on the u8 range coincides with
255 - v. -/
def invertVal (v : Nat) : Nat := 255 ^^^ v

/-- The persisted mask: the stamped mask inverted in place pixel by
pixel (line 168 of main.rs). -/
def invertMask (m : Nat → Nat → Nat) : Nat → Nat → Nat :=
  fun x y => invertVal (m x y)

/-- A 1 x 1 grid whose single pixel is fully dark. -/
def g11 : Grid := ⟨1, 1, fun _ _ => 0⟩

/-- A 2 x 1 grid whose two pixels are fully dark: one 4-connected dark
component with exactly two distinct pixels. -/
def g12 : Grid := ⟨2, 1, fun _ _ => 0⟩

lemma detect_g12_eq : detect g12 = [[(0, 0), (0, 0), (1, 0)]] := by
  rw [← detectF_eq_detect]
  decide

lemma detect_g11_eq : detect g11 = [[(0, 0), (0, 0)]] := by
  rw [← detectF_eq_detect]
  decide


/-- A path, as the list of its components. -/
abbrev Path := List String

/-!
Model of one filesystem node as the enumerator observes it, together
with the entry sequence of a directory.  A node records what the metadata
of the entry said (file, directory, or neither of the two, i.e. a special
file), and for a directory the observed outcome of read_dir: a listing
failure (dirFail), or the sequence of entry results (dirList).  Each
entry result is either an entry read failure (readErr, the Err case of
the ReadDir iterator), or an entry whose metadata call failed (metaErr,
carrying the entry name and the error), or a successfully read entry
exposing its name and subtree (child).
-/

mutual

inductive FSTree where
  | file : FSTree
  | special : FSTree
  | dirFail : String → FSTree
  | dirList : FSEntries → FSTree

inductive FSEntries where
  | nil : FSEntries
  | cons : FSEntry → FSEntries → FSEntries

inductive FSEntry where
  | readErr : String → FSEntry
  | metaErr : String → String → FSEntry
  | child : String → FSTree → FSEntry

end

mutual

/-- Size of a filesystem node, for the termination measure of the
iterator. -/
def treeSize : FSTree → Nat
  | .file => 1
  | .special => 1
  | .dirFail _ => 1
  | .dirList es => 1 + esSize es

/-- Size of a directory entry sequence. -/
def esSize : FSEntries → Nat
  | .nil => 0
  | .cons e rest => entSize e + esSize rest

/-- Size of one directory entry result. -/
def entSize : FSEntry → Nat
  | .readErr _ => 1
  | .metaErr _ _ => 1
  | .child _ t => 2 + treeSize t

end

/-- The lazy enumerator state (enum GenResult of main.rs, lines 15-18):
a directory cursor holds the remaining ReadDir results and the directory
path used to form entry paths; the Option of the nested boxed enumerator
is inlined into the two constructors dirNone and dirSome; a Single holds
one optional item. -/
inductive GenResult where
  | dirNone : FSEntries → Path → GenResult
  | dirSome : FSEntries → Path → GenResult → GenResult
  | single : Option (Except String Path) → GenResult

/-- GenResult::from_meta_path (lines 21-32 of main.rs): a directory
becomes a Dir cursor when read_dir succeeds and a single Err item when it
fails; a file becomes a single Ok item; anything else becomes an empty
Single. -/
def from_meta_path : FSTree → Path → GenResult
  | .dirFail e, _ => .single (some (.error e))
  | .dirList es, p => .dirNone es p
  | .file, p => .single (some (.ok p))
  | .special, _ => .single none

/-- The From PathBuf conversion (lines 35-42 of main.rs): the metadata
call at the root, whose observed outcome is the Except argument, followed
by from_meta_path; a metadata failure becomes a single Err item. -/
def fromRoot : Except String FSTree → Path → GenResult
  | .ok t, p => from_meta_path t p
  | .error e, _ => .single (some (.error e))

/-- Termination measure for the iterator: the amount of unexplored
structure a GenResult still holds. -/
def genSize : GenResult → Nat
  | .single none => 0
  | .single (some _) => 1
  | .dirNone es _ => 1 + esSize es
  | .dirSome es _ c => 2 + esSize es + genSize c

lemma genSize_from_meta_path (t : FSTree) (p : Path) :
    genSize (from_meta_path t p) ≤ treeSize t := by
  match t with
  | .file => simp [from_meta_path, genSize, treeSize]
  | .special => simp [from_meta_path, genSize, treeSize]
  | .dirFail e => simp [from_meta_path, genSize, treeSize]
  | .dirList es => simp [from_meta_path, genSize, treeSize]

/-- The Iterator::next implementation for GenResult (lines 47-75 of
main.rs), returning the produced item together with the successor state
(the Rust code mutates self in place).  A Dir with a live nested
enumerator pulls from it, dropping it (Option::take) when it is
exhausted; a Dir without one pulls the next ReadDir result, turning an
entry read failure or an entry metadata failure into an Err item and a
successful entry into a new nested enumerator built by from_meta_path on
the entry path; a Single yields its item at most once (Option::take). -/
def next : GenResult → Option (Except String Path) × GenResult
  | .single val => (val, .single none)
  | .dirSome es p c =>
    match next c with
    | (some r, c1) => (some r, .dirSome es p c1)
    | (none, _) => next (.dirNone es p)
  | .dirNone .nil p => (none, .dirNone .nil p)
  | .dirNone (.cons (.readErr e) es) p => (some (.error e), .dirNone es p)
  | .dirNone (.cons (.metaErr _ e) es) p => (some (.error e), .dirNone es p)
  | .dirNone (.cons (.child n t) es) p =>
    next (.dirSome es p (from_meta_path t (p ++ [n])))
termination_by g => genSize g
decreasing_by
  · simp [genSize]
  · simp [genSize]
    omega
  · have h := genSize_from_meta_path t (p ++ [n])
    simp [genSize, esSize, entSize]
    omega

theorem next_size : ∀ (g : GenResult) (r : Except String Path)
    (g1 : GenResult), next g = (some r, g1) → genSize g1 < genSize g := by
  intro g
  induction g using next.induct with
  | case1 val =>
    intro r g1 h
    rw [next.eq_1] at h
    cases val with
    | none => simp at h
    | some v =>
      rw [Prod.mk.injEq] at h
      obtain ⟨h1, h2⟩ := h
      subst h2
      simp [genSize]
  | case2 es p c r1 c1 hc ih =>
    intro r g1 h
    rw [next.eq_2, hc] at h
    rw [Prod.mk.injEq] at h
    obtain ⟨h1, h2⟩ := h
    subst h2
    have := ih r1 c1 hc
    simp only [genSize]
    omega
  | case3 es p c c2 hc ih ih2 =>
    intro r g1 h
    rw [next.eq_2, hc] at h
    have := ih2 r g1 h
    simp only [genSize] at this ⊢
    omega
  | case4 p =>
    intro r g1 h
    rw [next.eq_3] at h
    simp at h
  | case5 e es p =>
    intro r g1 h
    rw [next.eq_4, Prod.mk.injEq] at h
    obtain ⟨h1, h2⟩ := h
    subst h2
    simp only [genSize, esSize, entSize]
    omega
  | case6 nm e es p =>
    intro r g1 h
    rw [next.eq_5, Prod.mk.injEq] at h
    obtain ⟨h1, h2⟩ := h
    subst h2
    simp only [genSize, esSize, entSize]
    omega
  | case7 nm t es p ih =>
    intro r g1 h
    rw [next.eq_6] at h
    have h1 := ih r g1 h
    have h2 := genSize_from_meta_path t (p ++ [nm])
    simp only [genSize, esSize, entSize] at h1 ⊢
    omega

/-- The full sequence the iterator produces: repeated next calls until
the iterator yields nothing. -/
def toList (g : GenResult) : List (Except String Path) :=
  match h : next g with
  | (none, _) => []
  | (some r, g1) => r :: toList g1
termination_by genSize g
decreasing_by exact next_size g r g1 h

lemma toList_eq (g : GenResult) : toList g =
    match next g with
    | (none, _) => []
    | (some r, g1) => r :: toList g1 := by
  rw [toList]
  rcases hn : next g with ⟨r, g1⟩
  cases r <;> simp

lemma toList_congr (g1 g2 : GenResult) (h : next g1 = next g2) :
    toList g1 = toList g2 := by
  rw [toList_eq g1, h, ← toList_eq g2]

lemma toList_single_none : toList (.single none) = [] := by
  rw [toList_eq, next.eq_1]

lemma toList_single_some (r : Except String Path) :
    toList (.single (some r)) = [r] := by
  rw [toList_eq, next.eq_1]
  simp only []
  rw [toList_single_none]

lemma toList_dirNone_nil (p : Path) : toList (.dirNone .nil p) = [] := by
  rw [toList_eq, next.eq_3]

lemma toList_readErr (e : String) (es : FSEntries) (p : Path) :
    toList (.dirNone (.cons (.readErr e) es) p) =
      .error e :: toList (.dirNone es p) := by
  rw [toList_eq, next.eq_4]

lemma toList_metaErr (nm e : String) (es : FSEntries) (p : Path) :
    toList (.dirNone (.cons (.metaErr nm e) es) p) =
      .error e :: toList (.dirNone es p) := by
  rw [toList_eq, next.eq_5]

lemma toList_dirSome_aux : ∀ (n : Nat) (c : GenResult), genSize c ≤ n →
    ∀ (es : FSEntries) (p : Path),
    toList (.dirSome es p c) = toList c ++ toList (.dirNone es p) := by
  intro n
  induction n with
  | zero =>
    intro c hc es p
    rcases hn : next c with ⟨r, c1⟩
    cases r with
    | none =>
      have h1 : toList (.dirSome es p c) = toList (.dirNone es p) :=
        toList_congr _ _ (by rw [next.eq_2, hn])
      have h2 : toList c = [] := by rw [toList_eq, hn]
      rw [h1, h2, List.nil_append]
    | some r =>
      have := next_size c r c1 hn
      omega
  | succ n ih =>
    intro c hc es p
    rcases hn : next c with ⟨r, c1⟩
    cases r with
    | none =>
      have h1 : toList (.dirSome es p c) = toList (.dirNone es p) :=
        toList_congr _ _ (by rw [next.eq_2, hn])
      have h2 : toList c = [] := by rw [toList_eq, hn]
      rw [h1, h2, List.nil_append]
    | some r =>
      have hlt := next_size c r c1 hn
      have h1 : toList (.dirSome es p c) = r :: toList (.dirSome es p c1) := by
        rw [toList_eq]
        rw [next.eq_2, hn]
      have h2 : toList c = r :: toList c1 := by rw [toList_eq, hn]
      rw [h1, h2, ih c1 (by omega) es p, List.cons_append]

lemma toList_dirSome (c : GenResult) (es : FSEntries) (p : Path) :
    toList (.dirSome es p c) = toList c ++ toList (.dirNone es p) :=
  toList_dirSome_aux (genSize c) c le_rfl es p

lemma toList_child (nm : String) (t : FSTree) (es : FSEntries) (p : Path) :
    toList (.dirNone (.cons (.child nm t) es) p) =
      toList (from_meta_path t (p ++ [nm])) ++ toList (.dirNone es p) := by
  rw [toList_congr _ _ (next.eq_6 nm t es p), toList_dirSome]

/-- The matches test of main (line 91 of main.rs): whether the fresh
enumerator for a root is a Dir cursor. -/
def GenResult.isDir : GenResult → Bool
  | .dirNone _ _ => true
  | .dirSome _ _ _ => true
  | .single _ => false

/-- The relative-path computation of main (lines 94-102 of main.rs): for
a directory root, Path::strip_prefix of the root (an error when the root
is not a prefix); for a file root, the file name (the last path
component), an error when there is none. -/
def relOf (isDir : Bool) (base rp : Path) : Except String Path :=
  if isDir then
    if base.isPrefixOf rp then .ok (rp.drop base.length)
    else .error "StripPrefixError"
  else
    match rp.getLast? with
    | some nm => .ok [nm]
    | none => .error "Failed to extract file name"

/-- One root's stream of work items as main builds it (lines 88-107 of
main.rs): the enumerated sequence, with every Ok path paired with its
computed relative path and every failure kept as an Err item. -/
def pairSeq (rootMeta : Except String FSTree) (base : Path) :
    List (Except String (Path × Path)) :=
  (toList (fromRoot rootMeta base)).map fun item =>
    item.bind fun rp =>
      (relOf (fromRoot rootMeta base).isDir base rp).map fun rel => (rp, rel)

/-- The destination path of main (line 169 of main.rs): the output root
joined with the relative path. -/
def destPath (outDir rel : Path) : Path := outDir ++ rel

lemma getD_set_true_mono : ∀ (l : List Bool) (j i : Nat),
    l.getD i true = true → (l.set j true).getD i true = true := by
  intro l
  induction l with
  | nil => intro j i h; simpa [List.set] using h
  | cons b t ih =>
    intro j i h
    cases j with
    | zero =>
      cases i with
      | zero => simp [List.set]
      | succ i => simpa [List.set, List.getD_cons_succ] using h
    | succ j =>
      cases i with
      | zero => simpa [List.set] using h
      | succ i =>
        rw [List.getD_cons_succ] at h
        simpa [List.set, List.getD_cons_succ] using ih j i h

lemma getD_set_self_true : ∀ (l : List Bool) (i : Nat),
    l.getD i true = false → (l.set i true).getD i true = true := by
  intro l
  induction l with
  | nil => intro i h; simp [List.getD] at h
  | cons b t ih =>
    intro i h
    cases i with
    | zero => simp [List.set]
    | succ i =>
      rw [List.getD_cons_succ] at h
      simpa [List.set, List.getD_cons_succ] using ih i h

lemma bfs_vis_mono (g : Grid) : ∀ (vis : List Bool) (q blob : List (Nat × Nat))
    (i : Nat), vis.getD i true = true →
    (bfs g vis q blob).1.getD i true = true := by
  intro vis q blob
  induction vis, q, blob using bfs.induct g with
  | case1 vis blob =>
    intro i h
    rw [bfs.eq_1]
    exact h
  | case2 vis x y q blob hv ih =>
    intro i h
    rw [bfs_cons_visited g vis x y q blob hv]
    exact ih i h
  | case3 vis x y q blob hv vis1 ih =>
    intro i h
    rw [bfs_cons_new g vis x y q blob hv]
    exact ih i (getD_set_true_mono vis (idx32 g.w x y) i h)

lemma bfs_blob_flip (g : Grid) : ∀ (vis : List Bool) (q blob : List (Nat × Nat)),
    ∀ p ∈ (bfs g vis q blob).2, p ∈ blob ∨
      (vis.getD (idx32 g.w p.1 p.2) true = false ∧
        (bfs g vis q blob).1.getD (idx32 g.w p.1 p.2) true = true) := by
  intro vis q blob
  induction vis, q, blob using bfs.induct g with
  | case1 vis blob =>
    intro p hp
    rw [bfs.eq_1] at hp ⊢
    exact Or.inl hp
  | case2 vis x y q blob hv ih =>
    intro p hp
    rw [bfs_cons_visited g vis x y q blob hv] at hp ⊢
    exact ih p hp
  | case3 vis x y q blob hv vis1 ih =>
    intro p hp
    rw [bfs_cons_new g vis x y q blob hv] at hp ⊢
    have hf : vis.getD (idx32 g.w x y) true = false := by
      cases hb : vis.getD (idx32 g.w x y) true
      · rfl
      · exact absurd hb hv
    rcases ih p hp with hmem | ⟨hpre, hpost⟩
    · rcases List.mem_append.1 hmem with hb | hxy
      · exact Or.inl hb
      · have hpeq : p = (x, y) := by simpa using hxy
        subst hpeq
        refine Or.inr ⟨hf, ?_⟩
        exact bfs_vis_mono g _ _ _ _ (getD_set_self_true vis (idx32 g.w x y) hf)
    · refine Or.inr ⟨?_, hpost⟩
      cases hb : vis.getD (idx32 g.w p.1 p.2) true
      · rfl
      · have := getD_set_true_mono vis (idx32 g.w x y) (idx32 g.w p.1 p.2) hb
        rw [this] at hpre
        exact absurd hpre (by simp)

lemma pushNeighbors_bounds (g : Grid) (vis : List Bool) (x y : Nat) :
    ∀ c ∈ pushNeighbors g vis x y, c.1 < g.w ∧ c.2 < g.h := by
  intro c hc
  simp only [pushNeighbors, List.mem_filterMap] at hc
  obtain ⟨d, hd, hsome⟩ := hc
  split_ifs at hsome with h1 h2 h3 h4 <;>
    first
      | exact Option.noConfusion hsome
      | (obtain rfl : ((x + d.1) % U32, (y + d.2) % U32) = c :=
          Option.some.inj hsome
         exact ⟨by omega, by omega⟩)

lemma bfs_blob_bounds (g : Grid) : ∀ (vis : List Bool)
    (q blob : List (Nat × Nat)), (∀ p ∈ q, p.1 < g.w ∧ p.2 < g.h) →
    ∀ p ∈ (bfs g vis q blob).2, p ∈ blob ∨ (p.1 < g.w ∧ p.2 < g.h) := by
  intro vis q blob
  induction vis, q, blob using bfs.induct g with
  | case1 vis blob =>
    intro hq p hp
    rw [bfs.eq_1] at hp
    exact Or.inl hp
  | case2 vis x y q blob hv ih =>
    intro hq p hp
    rw [bfs_cons_visited g vis x y q blob hv] at hp
    exact ih (fun p hp => hq p (List.mem_cons_of_mem _ hp)) p hp
  | case3 vis x y q blob hv vis1 ih =>
    intro hq p hp
    rw [bfs_cons_new g vis x y q blob hv] at hp
    have hq1 : ∀ p ∈ q ++ pushNeighbors g (vis.set (idx32 g.w x y) true) x y,
        p.1 < g.w ∧ p.2 < g.h := by
      intro p hp
      rcases List.mem_append.1 hp with h | h
      · exact hq p (List.mem_cons_of_mem _ h)
      · exact pushNeighbors_bounds g _ x y p h
    rcases ih hq1 p hp with hmem | hb
    · rcases List.mem_append.1 hmem with hb | hxy
      · exact Or.inl hb
      · have hpeq : p = (x, y) := by simpa using hxy
        subst hpeq
        exact Or.inr (hq (x, y) (by simp))
    · exact Or.inr hb

lemma detectGo_cons_skip (g : Grid) (x y : Nat) (rest : List (Nat × Nat))
    (vis : List Bool) (acc : List (List (Nat × Nat)))
    (h : vis.getD (idx32 g.w x y) true = true ∨ MAX_BLACK < g.px x y) :
    detectGo g ((x, y) :: rest) vis acc = detectGo g rest vis acc := by
  simp only [detectGo]
  rw [if_pos h]

lemma detectGo_cons_seed (g : Grid) (x y : Nat) (rest : List (Nat × Nat))
    (vis : List Bool) (acc : List (List (Nat × Nat)))
    (h : ¬(vis.getD (idx32 g.w x y) true = true ∨ MAX_BLACK < g.px x y)) :
    detectGo g ((x, y) :: rest) vis acc =
      detectGo g rest (bfs g vis [(x, y)] [(x, y)]).1
        (if 1 < (bfs g vis [(x, y)] [(x, y)]).2.length then
          acc ++ [(bfs g vis [(x, y)] [(x, y)]).2] else acc) := by
  simp only [detectGo]
  rw [if_neg h]

lemma bfs_seed_flip (g : Grid) (vis : List Bool) (x y : Nat)
    (hf : vis.getD (idx32 g.w x y) true = false) :
    ∀ p ∈ (bfs g vis [(x, y)] [(x, y)]).2,
      vis.getD (idx32 g.w p.1 p.2) true = false ∧
      (bfs g vis [(x, y)] [(x, y)]).1.getD (idx32 g.w p.1 p.2) true = true := by
  intro p hp
  have hv : ¬vis.getD (idx32 g.w x y) true = true := by
    intro hc
    rw [hc] at hf
    cases hf
  rcases bfs_blob_flip g vis [(x, y)] [(x, y)] p hp with hmem | ⟨hpre, hpost⟩
  · have hpeq : p = (x, y) := by simpa using hmem
    subst hpeq
    refine ⟨hf, ?_⟩
    rw [bfs_cons_new g vis x y [] [(x, y)] hv]
    exact bfs_vis_mono g _ _ _ _ (getD_set_self_true vis (idx32 g.w x y) hf)
  · exact ⟨hpre, hpost⟩

/-- Disjointness of two recorded components, as pixel sets. -/
def disjointBlobs (b1 b2 : List (Nat × Nat)) : Prop := ∀ p, p ∈ b1 → p ∉ b2

lemma detectGo_pairwise (g : Grid) : ∀ (l : List (Nat × Nat)) (vis : List Bool)
    (acc : List (List (Nat × Nat))),
    (∀ b ∈ acc, ∀ p ∈ b, vis.getD (idx32 g.w p.1 p.2) true = true) →
    acc.Pairwise disjointBlobs →
    (detectGo g l vis acc).2.Pairwise disjointBlobs := by
  intro l
  induction l with
  | nil =>
    intro vis acc hacc hpw
    simpa [detectGo] using hpw
  | cons pt rest ih =>
    intro vis acc hacc hpw
    obtain ⟨x, y⟩ := pt
    by_cases hg : vis.getD (idx32 g.w x y) true = true ∨ MAX_BLACK < g.px x y
    · rw [detectGo_cons_skip g x y rest vis acc hg]
      exact ih vis acc hacc hpw
    · rw [detectGo_cons_seed g x y rest vis acc hg]
      have hf : vis.getD (idx32 g.w x y) true = false := by
        rcases not_or.mp hg with ⟨h1, _⟩
        cases hb : vis.getD (idx32 g.w x y) true
        · rfl
        · exact absurd hb h1
      have hflip := bfs_seed_flip g vis x y hf
      have hmono : ∀ i, vis.getD i true = true →
          (bfs g vis [(x, y)] [(x, y)]).1.getD i true = true :=
        fun i => bfs_vis_mono g vis [(x, y)] [(x, y)] i
      set r := bfs g vis [(x, y)] [(x, y)] with hr
      have hacc1 : ∀ b ∈ (if 1 < r.2.length then acc ++ [r.2] else acc),
          ∀ p ∈ b, r.1.getD (idx32 g.w p.1 p.2) true = true := by
        intro b hb p hp
        rcases Decidable.em (1 < r.2.length) with hc | hc
        · rw [if_pos hc] at hb
          rcases List.mem_append.1 hb with hb1 | hb2
          · exact hmono _ (hacc b hb1 p hp)
          · have : b = r.2 := by simpa using hb2
            subst this
            exact (hflip p hp).2
        · rw [if_neg hc] at hb
          exact hmono _ (hacc b hb p hp)
      have hpw1 : (if 1 < r.2.length then acc ++ [r.2] else acc).Pairwise
          disjointBlobs := by
        rcases Decidable.em (1 < r.2.length) with hc | hc
        · rw [if_pos hc]
          rw [List.pairwise_append]
          refine ⟨hpw, by simp [disjointBlobs], ?_⟩
          intro b hb b2 hb2
          have : b2 = r.2 := by simpa using hb2
          subst this
          intro p hpb hpr
          have h1 := hacc b hb p hpb
          have h2 := (hflip p hpr).1
          rw [h1] at h2
          exact absurd h2 (by simp)
        · rw [if_neg hc]
          exact hpw
      exact ih r.1 _ hacc1 hpw1

lemma pixelList_bounds (g : Grid) :
    ∀ pt ∈ pixelList g, pt.1 < g.w ∧ pt.2 < g.h := by
  intro pt hpt
  simp only [pixelList, List.mem_flatMap, List.mem_map, List.mem_range] at hpt
  obtain ⟨y, hy, x, hx, rfl⟩ := hpt
  exact ⟨hx, hy⟩

lemma detectGo_bounds (g : Grid) : ∀ (l : List (Nat × Nat)) (vis : List Bool)
    (acc : List (List (Nat × Nat))),
    (∀ pt ∈ l, pt.1 < g.w ∧ pt.2 < g.h) →
    (∀ b ∈ acc, ∀ p ∈ b, p.1 < g.w ∧ p.2 < g.h) →
    ∀ b ∈ (detectGo g l vis acc).2, ∀ p ∈ b, p.1 < g.w ∧ p.2 < g.h := by
  intro l
  induction l with
  | nil =>
    intro vis acc hl hacc
    simpa [detectGo] using hacc
  | cons pt rest ih =>
    intro vis acc hl hacc
    obtain ⟨x, y⟩ := pt
    have hxy : x < g.w ∧ y < g.h := hl (x, y) (by simp)
    have hrest : ∀ pt ∈ rest, pt.1 < g.w ∧ pt.2 < g.h :=
      fun pt hpt => hl pt (List.mem_cons_of_mem _ hpt)
    by_cases hg : vis.getD (idx32 g.w x y) true = true ∨ MAX_BLACK < g.px x y
    · rw [detectGo_cons_skip g x y rest vis acc hg]
      exact ih vis acc hrest hacc
    · rw [detectGo_cons_seed g x y rest vis acc hg]
      set r := bfs g vis [(x, y)] [(x, y)] with hr
      have hblob : ∀ p ∈ r.2, p.1 < g.w ∧ p.2 < g.h := by
        intro p hp
        rcases bfs_blob_bounds g vis [(x, y)] [(x, y)]
            (by intro p hp; simpa using (by
              have : p = (x, y) := by simpa using hp
              subst this
              exact hxy)) p hp with hmem | hb
        · have : p = (x, y) := by simpa using hmem
          subst this
          exact hxy
        · exact hb
      have hacc1 : ∀ b ∈ (if 1 < r.2.length then acc ++ [r.2] else acc),
          ∀ p ∈ b, p.1 < g.w ∧ p.2 < g.h := by
        intro b hb p hp
        rcases Decidable.em (1 < r.2.length) with hc | hc
        · rw [if_pos hc] at hb
          rcases List.mem_append.1 hb with hb1 | hb2
          · exact hacc b hb1 p hp
          · have : b = r.2 := by simpa using hb2
            subst this
            exact hblob p hp
        · rw [if_neg hc] at hb
          exact hacc b hb p hp
      exact ih r.1 _ hrest hacc1

lemma pushNeighbors_isolated (g : Grid) (a b : Nat) (vis : List Bool)
    (hwU : g.w < U32) (hhU : g.h < U32) (ha : a < g.w) (hb : b < g.h)
    (hnb1 : a + 1 < g.w → MAX_GRAY < g.px (a + 1) b)
    (hnb2 : 1 ≤ a → MAX_GRAY < g.px (a - 1) b)
    (hnb3 : b + 1 < g.h → MAX_GRAY < g.px a (b + 1))
    (hnb4 : 1 ≤ b → MAX_GRAY < g.px a (b - 1)) :
    pushNeighbors g vis a b = [] := by
  have hU : U32 = 4294967296 := rfl
  rw [List.eq_nil_iff_forall_not_mem]
  intro c hc
  simp only [pushNeighbors, List.mem_filterMap] at hc
  obtain ⟨d, hd, hsome⟩ := hc
  have haU : a < U32 := lt_trans ha hwU
  have hbU : b < U32 := lt_trans hb hhU
  simp only [offsets, List.mem_cons, List.not_mem_nil, or_false] at hd
  rcases hd with rfl | rfl | rfl | rfl
  · -- d = (0, 1): the down neighbor (a, b + 1)
    have c1 : (a + (0, 1).1) % U32 = a := by
      simp only []
      rw [hU] at haU ⊢
      omega
    have c2 : (b + (0, 1).2) % U32 = b + 1 := by
      simp only []
      rw [hU] at hbU hhU ⊢
      omega
    rw [c1, c2] at hsome
    split_ifs at hsome with h1 h2 h3 h4 <;>
      first
        | exact Option.noConfusion hsome
        | exact absurd (hnb3 (by omega)) h4
  · -- d = (0, U32 - 1): the up neighbor (a, b - 1), wrapping at b = 0
    have c1 : (a + (0, U32 - 1).1) % U32 = a := by
      simp only []
      rw [hU] at haU ⊢
      omega
    rw [c1] at hsome
    rcases Nat.eq_zero_or_pos b with rfl | hbpos
    · have c2 : (0 + (0, U32 - 1).2) % U32 = U32 - 1 := by
        simp only []
        rw [hU]
      rw [c2] at hsome
      split_ifs at hsome with h1 h2 h3 h4 <;>
        first
          | exact Option.noConfusion hsome
          | exact absurd (show g.h ≤ U32 - 1 by rw [hU] at hhU ⊢; omega) h2
    · have c2 : (b + (0, U32 - 1).2) % U32 = b - 1 := by
        simp only []
        rw [hU] at hbU ⊢
        omega
      rw [c2] at hsome
      split_ifs at hsome with h1 h2 h3 h4 <;>
        first
          | exact Option.noConfusion hsome
          | exact absurd (hnb4 hbpos) h4
  · -- d = (1, 0): the right neighbor (a + 1, b)
    have c1 : (a + (1, 0).1) % U32 = a + 1 := by
      simp only []
      rw [hU] at haU hwU ⊢
      omega
    have c2 : (b + (1, 0).2) % U32 = b := by
      simp only []
      rw [hU] at hbU ⊢
      omega
    rw [c1, c2] at hsome
    split_ifs at hsome with h1 h2 h3 h4 <;>
      first
        | exact Option.noConfusion hsome
        | exact absurd (hnb1 (by omega)) h4
  · -- d = (U32 - 1, 0): the left neighbor (a - 1, b), wrapping at a = 0
    have c2 : (b + (U32 - 1, 0).2) % U32 = b := by
      simp only []
      rw [hU] at hbU ⊢
      omega
    rw [c2] at hsome
    rcases Nat.eq_zero_or_pos a with rfl | hapos
    · have c1 : (0 + (U32 - 1, 0).1) % U32 = U32 - 1 := by
        simp only []
        rw [hU]
      rw [c1] at hsome
      split_ifs at hsome with h1 h2 h3 h4 <;>
        first
          | exact Option.noConfusion hsome
          | exact absurd (show g.w ≤ U32 - 1 by rw [hU] at hwU ⊢; omega) h1
    · have c1 : (a + (U32 - 1, 0).1) % U32 = a - 1 := by
        simp only []
        rw [hU] at haU ⊢
        omega
      rw [c1] at hsome
      split_ifs at hsome with h1 h2 h3 h4 <;>
        first
          | exact Option.noConfusion hsome
          | exact absurd (hnb2 hapos) h4

lemma bfs_isolated (g : Grid) (a b : Nat) (vis : List Bool)
    (hwU : g.w < U32) (hhU : g.h < U32) (ha : a < g.w) (hb : b < g.h)
    (hnb1 : a + 1 < g.w → MAX_GRAY < g.px (a + 1) b)
    (hnb2 : 1 ≤ a → MAX_GRAY < g.px (a - 1) b)
    (hnb3 : b + 1 < g.h → MAX_GRAY < g.px a (b + 1))
    (hnb4 : 1 ≤ b → MAX_GRAY < g.px a (b - 1))
    (hf : vis.getD (idx32 g.w a b) true = false) :
    bfs g vis [(a, b)] [(a, b)] =
      (vis.set (idx32 g.w a b) true, [(a, b), (a, b)]) := by
  have hv : ¬vis.getD (idx32 g.w a b) true = true := by
    intro hc
    rw [hc] at hf
    cases hf
  rw [bfs_cons_new g vis a b [] [(a, b)] hv, List.nil_append,
    pushNeighbors_isolated g a b _ hwU hhU ha hb hnb1 hnb2 hnb3 hnb4,
    bfs.eq_1]
  rfl

lemma detectGo_isolated (g : Grid) (a b : Nat)
    (hwU : g.w < U32) (hhU : g.h < U32) (ha : a < g.w) (hb : b < g.h)
    (hdark : g.px a b ≤ MAX_BLACK)
    (hothers : ∀ x y, x < g.w → y < g.h → ¬(x = a ∧ y = b) →
      MAX_BLACK < g.px x y)
    (hnb1 : a + 1 < g.w → MAX_GRAY < g.px (a + 1) b)
    (hnb2 : 1 ≤ a → MAX_GRAY < g.px (a - 1) b)
    (hnb3 : b + 1 < g.h → MAX_GRAY < g.px a (b + 1))
    (hnb4 : 1 ≤ b → MAX_GRAY < g.px a (b - 1)) :
    ∀ (l : List (Nat × Nat)) (vis : List Bool) (acc : List (List (Nat × Nat))),
    (∀ pt ∈ l, pt.1 < g.w ∧ pt.2 < g.h) →
    (detectGo g l vis acc).2 =
      if (a, b) ∈ l ∧ vis.getD (idx32 g.w a b) true = false then
        acc ++ [[(a, b), (a, b)]] else acc := by
  intro l
  induction l with
  | nil =>
    intro vis acc hl
    simp [detectGo]
  | cons pt rest ih =>
    intro vis acc hl
    obtain ⟨x, y⟩ := pt
    have hxy : x < g.w ∧ y < g.h := hl (x, y) (by simp)
    have hrest : ∀ pt ∈ rest, pt.1 < g.w ∧ pt.2 < g.h :=
      fun pt hpt => hl pt (List.mem_cons_of_mem _ hpt)
    by_cases hpe : (x, y) = (a, b)
    · have h1 : x = a := congrArg Prod.fst hpe
      have h2 : y = b := congrArg Prod.snd hpe
      subst h1
      subst h2
      by_cases hv : vis.getD (idx32 g.w x y) true = true
      · rw [detectGo_cons_skip g x y rest vis acc (Or.inl hv), ih vis acc hrest]
        have hnf : ¬vis.getD (idx32 g.w x y) true = false := by
          rw [hv]
          simp
        rw [if_neg (by intro hcon; exact hnf hcon.2),
          if_neg (by intro hcon; exact hnf hcon.2)]
      · have hf : vis.getD (idx32 g.w x y) true = false := by
          cases hc : vis.getD (idx32 g.w x y) true
          · rfl
          · exact absurd hc hv
        have hguard : ¬(vis.getD (idx32 g.w x y) true = true ∨
            MAX_BLACK < g.px x y) := by
          intro hcon
          rcases hcon with hc | hc
          · exact hv hc
          · omega
        rw [detectGo_cons_seed g x y rest vis acc hguard,
          bfs_isolated g x y vis hwU hhU ha hb hnb1 hnb2 hnb3 hnb4 hf]
        simp only [List.length_cons, List.length_nil]
        rw [if_pos (by omega)]
        rw [ih _ _ hrest]
        have hset : (vis.set (idx32 g.w x y) true).getD
            (idx32 g.w x y) true = true :=
          getD_set_self_true vis (idx32 g.w x y) hf
        rw [if_neg (by
          intro hcon
          rw [hset] at hcon
          exact Bool.noConfusion hcon.2)]
        rw [if_pos ⟨by simp, hf⟩]
    · have hpx : MAX_BLACK < g.px x y := by
        apply hothers x y hxy.1 hxy.2
        intro hcon
        exact hpe (by rw [hcon.1, hcon.2])
      rw [detectGo_cons_skip g x y rest vis acc (Or.inr hpx), ih vis acc hrest]
      have hmem : (a, b) ∈ (x, y) :: rest ↔ (a, b) ∈ rest := by
        simp only [List.mem_cons]
        constructor
        · rintro (hc | hc)
          · exact absurd hc.symm hpe
          · exact hc
        · exact Or.inr
      exact if_congr (and_congr_left fun _ => hmem.symm) rfl rfl

lemma getD_replicate_false : ∀ (n i : Nat), i < n →
    (List.replicate n false).getD i true = false := by
  intro n
  induction n with
  | zero => intro i h; omega
  | succ n ih =>
    intro i h
    cases i with
    | zero => simp [List.replicate_succ]
    | succ i =>
      rw [List.replicate_succ, List.getD_cons_succ]
      exact ih i (by omega)

lemma mem_pixelList (g : Grid) (a b : Nat) (ha : a < g.w) (hb : b < g.h) :
    (a, b) ∈ pixelList g := by
  simp only [pixelList, List.mem_flatMap, List.mem_map, List.mem_range]
  exact ⟨b, hb, a, ha, rfl⟩

lemma stampBlob_val (blob : List (Nat × Nat)) :
    ∀ (m : Nat → Nat → Nat) (x y : Nat), (m x y = 0 ∨ m x y = 255) →
    (stampBlob m blob x y = 0 ∨ stampBlob m blob x y = 255) := by
  induction blob with
  | nil => intro m x y h; exact h
  | cons p rest ih =>
    intro m x y h
    rw [stampBlob, List.foldl_cons]
    apply ih
    by_cases hc : x = p.1 ∧ y = p.2
    · rw [if_pos hc]
      exact Or.inr rfl
    · rw [if_neg hc]
      exact h

lemma classifyMask_val (blobs : List (List (Nat × Nat))) (x y : Nat) :
    classifyMask blobs x y = 0 ∨ classifyMask blobs x y = 255 := by
  rw [classifyMask]
  have hgen : ∀ (m : Nat → Nat → Nat), (m x y = 0 ∨ m x y = 255) →
      ((blobs.foldl classifyStep m) x y = 0 ∨
        (blobs.foldl classifyStep m) x y = 255) := by
    induction blobs with
    | nil => intro m h; exact h
    | cons b rest ih =>
      intro m h
      rw [List.foldl_cons]
      apply ih
      rw [classifyStep]
      by_cases h1 : b.length < 3 ∨ 10000 < b.length
      · rw [if_pos h1]
        exact h
      · rw [if_neg h1]
        by_cases h2 : circReject b = true
        · rw [if_pos h2]
          exact h
        · rw [if_neg h2]
          exact stampBlob_val b m x y h
  exact hgen mask0 (Or.inl rfl)

lemma index_lt (g : Grid) (a b : Nat) (ha : a < g.w) (hb : b < g.h) :
    b * g.w + a < g.w * g.h := by
  have h1 : b * g.w + a < (b + 1) * g.w := by
    rw [Nat.succ_mul]
    omega
  have h2 : (b + 1) * g.w ≤ g.h * g.w := Nat.mul_le_mul_right _ (by omega)
  rw [Nat.mul_comm g.w g.h]
  omega

lemma idx32_eq (g : Grid) (a b : Nat) (hwh : g.w * g.h < U32)
    (ha : a < g.w) (hb : b < g.h) : idx32 g.w a b = b * g.w + a :=
  Nat.mod_eq_of_lt (lt_trans (index_lt g a b ha hb) hwh)

lemma detect_isolated (g : Grid) (a b : Nat)
    (hwU : g.w < U32) (hhU : g.h < U32) (hwh : g.w * g.h < U32)
    (ha : a < g.w) (hb : b < g.h)
    (hdark : g.px a b ≤ MAX_BLACK)
    (hothers : ∀ x, x < g.w → ∀ y, y < g.h → ¬(x = a ∧ y = b) →
      MAX_BLACK < g.px x y)
    (hnb1 : a + 1 < g.w → MAX_GRAY < g.px (a + 1) b)
    (hnb2 : 1 ≤ a → MAX_GRAY < g.px (a - 1) b)
    (hnb3 : b + 1 < g.h → MAX_GRAY < g.px a (b + 1))
    (hnb4 : 1 ≤ b → MAX_GRAY < g.px a (b - 1)) :
    detect g = [[(a, b), (a, b)]] := by
  have hothers2 : ∀ x y, x < g.w → y < g.h → ¬(x = a ∧ y = b) →
      MAX_BLACK < g.px x y := fun x y hx hy => hothers x hx y hy
  have hvis0 : (List.replicate ((g.w * g.h) % U32) false).getD
      (idx32 g.w a b) true = false := by
    rw [Nat.mod_eq_of_lt hwh, idx32_eq g a b hwh ha hb]
    exact getD_replicate_false _ _ (index_lt g a b ha hb)
  rw [detect, detectGo_isolated g a b hwU hhU ha hb hdark hothers2
    hnb1 hnb2 hnb3 hnb4 (pixelList g) _ [] (pixelList_bounds g),
    if_pos ⟨mem_pixelList g a b ha hb, hvis0⟩, List.nil_append]

/-!
The claim theorems.  Each theorem below settles one claim about the
program; the helper lemmas above carry the proofs.
-/

/-- Claim C1, evaluation at the failing input: on the fully dark 2 x 1
grid the detector returns one component whose recorded coordinate list is
[(0,0), (0,0), (1,0)], in which the seed coordinate (0,0) occurs twice,
so the recorded list of one connected component is not duplicate-free.
This contradicts the claim that every blob contains each coordinate at
most once: the seed pixel is pushed into the component list once when the
list is created (line 121 of main.rs) and again when it is popped from
the queue (line 128). -/
theorem blob_seed_recorded_twice :
    detect g12 = [[(0, 0), (0, 0), (1, 0)]] ∧
      ¬([(0, 0), (0, 0), (1, 0)] : List (Nat × Nat)).Nodup :=
  ⟨detect_g12_eq, by decide⟩

/-- Claim C2, evaluation at the failing input: on the fully dark 2 x 1
grid the unique component has exactly 2 distinct pixels (its deduplicated
member list is [(0,0), (1,0)]), yet the classifier stamps it into the
mask (position (0,0) holds foreground 255).  This contradicts the claim
that a blob whose distinct pixel count is below 3 is rejected: the
recorded list has length 3 because of the duplicated seed, so the
length-based gate of line 146 does not fire. -/
theorem undersized_component_stamped :
    classifyMask (detect g12) 0 0 = 255 ∧
      ((detect g12).headD []).dedup = [(0, 0), (1, 0)] := by
  rw [detect_g12_eq]
  constructor
  · decide
  · decide

/-- Claim C3, evaluation at the failing input: on the 1 x 1 grid with a
single dark pixel the sole connected component has exactly 1 pixel, yet
the detector returns it (as the length-2 list [(0,0), (0,0)] produced by
the duplicated seed).  This contradicts the claim that singleton
components are discarded: the guard blob.len() > 1 of line 141 never
fires because the recorded length is always at least 2. -/
theorem singleton_component_returned :
    detect g11 = [[(0, 0), (0, 0)]] ∧
      ((detect g11).headD []).dedup = [(0, 0)] := by
  rw [detect_g11_eq]
  constructor
  · rfl
  · decide

/-- Claim C4, counterexample: a directory whose only entry is neither a
file nor a directory produces an empty enumeration, with no Err item for
the special entry; the claim that exactly one Err item is emitted for
such an entry is false (GenResult::Single(None) yields nothing). -/
theorem special_entry_emits_no_error :
    toList (from_meta_path
      (.dirList (.cons (.child "dev0" .special) .nil)) ["root"]) = [] := by
  rw [show from_meta_path
      (.dirList (.cons (.child "dev0" .special) .nil)) ["root"] =
      GenResult.dirNone (.cons (.child "dev0" .special) .nil) ["root"]
    from rfl]
  rw [toList_child]
  rw [show from_meta_path .special (["root"] ++ ["dev0"]) =
    GenResult.single none from rfl]
  rw [toList_single_none, toList_dirNone_nil]
  rfl

/-- Claim C4, amended: a directory entry that is neither a file nor a
directory is silently skipped: it contributes no item at all (neither Ok
nor Err) to the enumerated sequence, and enumeration continues with the
remaining sibling entries. -/
theorem special_entry_skipped (nm : String) (es : FSEntries) (p : Path) :
    toList (.dirNone (.cons (.child nm .special) es) p) =
      toList (.dirNone es p) := by
  rw [toList_child]
  rw [show from_meta_path .special (p ++ [nm]) = GenResult.single none
    from rfl]
  rw [toList_single_none, List.nil_append]

/-- Claim C5: in a grid with exactly one dark pixel (intensity at most
the seed threshold MAX_BLACK) whose in-grid 4-connected neighbors all lie
above the expansion threshold MAX_GRAY, that pixel's position holds
background 0 in the stamped (pre-invert) mask: its component is recorded
with list length 2 and is rejected by the classifier's size gate, and no
other component exists. -/
theorem isolated_pixel_unstamped (g : Grid) (a b : Nat)
    (hwU : g.w < U32) (hhU : g.h < U32) (hwh : g.w * g.h < U32)
    (ha : a < g.w) (hb : b < g.h)
    (hdark : g.px a b ≤ MAX_BLACK)
    (hothers : ∀ x, x < g.w → ∀ y, y < g.h → ¬(x = a ∧ y = b) →
      MAX_BLACK < g.px x y)
    (hnb1 : a + 1 < g.w → MAX_GRAY < g.px (a + 1) b)
    (hnb2 : 1 ≤ a → MAX_GRAY < g.px (a - 1) b)
    (hnb3 : b + 1 < g.h → MAX_GRAY < g.px a (b + 1))
    (hnb4 : 1 ≤ b → MAX_GRAY < g.px a (b - 1)) :
    classifyMask (detect g) a b = 0 := by
  rw [detect_isolated g a b hwU hhU hwh ha hb hdark hothers
    hnb1 hnb2 hnb3 hnb4]
  rw [classifyMask, List.foldl_cons, List.foldl_nil, classifyStep,
    if_pos (Or.inl (by norm_num))]
  rfl

/-- A 3 x 3 grid with one dark pixel at its center, witnessing the
isolated-pixel theorem. -/
def g33 : Grid := ⟨3, 3, fun x y => if x = 1 ∧ y = 1 then 0 else 255⟩

/-- Witness for claim C5 at the concrete grid g33. -/
theorem isolated_pixel_unstamped_witness : classifyMask (detect g33) 1 1 = 0 :=
  isolated_pixel_unstamped g33 1 1 (by decide) (by decide) (by decide)
    (by decide) (by decide) (by decide) (by decide) (by decide) (by decide)
    (by decide) (by decide)

/-- Claim C6: a directory entry whose metadata read fails, and a
subdirectory entry whose listing (read_dir) fails, each become exactly
one Err item of the sequence at the point they are encountered, and the
rest of the sequence is exactly the enumeration of the remaining sibling
entries, which are therefore all still yielded. -/
theorem entry_failures_isolated (p : Path) (nm err : String)
    (es : FSEntries) :
    toList (.dirNone (.cons (.metaErr nm err) es) p) =
        .error err :: toList (.dirNone es p) ∧
      toList (.dirNone (.cons (.child nm (.dirFail err)) es) p) =
        .error err :: toList (.dirNone es p) := by
  constructor
  · exact toList_metaErr nm err es p
  · rw [toList_child]
    rw [show from_meta_path (.dirFail err) (p ++ [nm]) =
      GenResult.single (some (.error err)) from rfl]
    rw [toList_single_some, List.cons_append, List.nil_append]

/-- Claim C7: any two components recorded by the detector for one grid
are disjoint as pixel sets; once a pixel has been visited by one
component's search, the global visited vector keeps it out of every later
component. -/
theorem blobs_pairwise_disjoint (g : Grid) :
    (detect g).Pairwise disjointBlobs := by
  rw [detect]
  exact detectGo_pairwise g (pixelList g) _ [] (by simp) (by simp)

/-- Claim C8: for every pixel position, the persisted (inverted) mask
value equals 255 minus the stamped mask value at that position: the mask
holds only 0 and 255, on which the 8-bit complement performed by the
image inversion agrees with subtraction from 255. -/
theorem mask_inversion (g : Grid) (x y : Nat) :
    invertMask (classifyMask (detect g)) x y =
      255 - classifyMask (detect g) x y := by
  rcases classifyMask_val (detect g) x y with h | h <;>
    · rw [invertMask, invertVal, h]
      decide

/-- Claim C9: for a root that is a single file, the enumerated sequence
of work items has exactly one element, a success carrying the file's path
and a relative path that is just the file's base name (the original
parent path is discarded), and the destination is the output directory
joined with that base name. -/
theorem single_file_root_flattened (base out : Path) (nm : String)
    (hn : base.getLast? = some nm) :
    pairSeq (.ok .file) base = [.ok (base, [nm])] ∧
      destPath out [nm] = out ++ [nm] := by
  constructor
  · rw [pairSeq]
    rw [show fromRoot (.ok .file) base =
      GenResult.single (some (.ok base)) from rfl]
    rw [toList_single_some, List.map_cons, List.map_nil]
    simp [GenResult.isDir, relOf, hn, Except.bind, Except.map]
  · rfl

/-- Witness for claim C9 at a concrete three-component root path. -/
theorem single_file_root_flattened_witness :
    pairSeq (.ok .file) ["x", "y", "z.png"] =
        [.ok ((["x", "y", "z.png"] : Path), (["z.png"] : Path))] ∧
      destPath ["out"] ["z.png"] = ["out", "z.png"] :=
  single_file_root_flattened ["x", "y", "z.png"] ["out"] "z.png" rfl

/-- Claim C10: under the hypothesis that width * height does not overflow
the 32-bit index arithmetic, every coordinate recorded by the flood fill
lies strictly inside the grid, its index computation does not wrap, and
the resulting index is below width * height, the length of the visited
vector: the wrapping neighbor arithmetic combined with the guards
cx >= width and cy >= height keeps every access of the fill in bounds,
including at x = 0 and y = 0 where subtracting 1 wraps to 2^32 - 1 and is
caught by the guards. -/
theorem flood_fill_accesses_in_bounds (g : Grid) (hwh : g.w * g.h < U32) :
    ∀ blob ∈ detect g, ∀ p ∈ blob, p.1 < g.w ∧ p.2 < g.h ∧
      idx32 g.w p.1 p.2 = p.2 * g.w + p.1 ∧
      p.2 * g.w + p.1 < g.w * g.h := by
  intro blob hblob p hp
  have hb : p.1 < g.w ∧ p.2 < g.h := by
    rw [detect] at hblob
    exact detectGo_bounds g (pixelList g) _ [] (pixelList_bounds g)
      (by simp) blob hblob p hp
  exact ⟨hb.1, hb.2, idx32_eq g p.1 p.2 hwh hb.1 hb.2,
    index_lt g p.1 p.2 hb.1 hb.2⟩

/-- Witness for claim C10 at the concrete grid g12 and its recorded
component. -/
theorem flood_fill_accesses_in_bounds_witness :
    g12.w * g12.h < U32 ∧ (1 < g12.w ∧ 0 < g12.h ∧
      idx32 g12.w 1 0 = 0 * g12.w + 1 ∧ 0 * g12.w + 1 < g12.w * g12.h) :=
  ⟨by decide, flood_fill_accesses_in_bounds g12 (by decide)
    [(0, 0), (0, 0), (1, 0)] (by rw [detect_g12_eq]; simp) (1, 0)
    (by simp)⟩

end DyndicSeg
